import Mathlib

/-!
Verification of the miniflux-ai entry-processing core against its
natural-language specification.

The development shallowly embeds the Python modules
`core/content_helper.py`, `core/rule_matcher.py`, `core/llm_client.py`
and `core/entry_processor.py`.  Strings are modelled as `List Char`
(via `String.data`) where character-level scanning matters, and as
`String` elsewhere.  External collaborators (the HTML stripper, the
tiktoken tokenizer, the regex engine, the LLM network call) are
abstracted as explicit function parameters; everything else is a
direct transcription of the source.
-/

namespace MinifluxAI

/-! ### content_helper.py: stripping and markers -/

/-- Python `str.strip()` on a character list: drop whitespace at both ends. -/
def strip (s : List Char) : List Char :=
  ((s.dropWhile Char.isWhitespace).reverse.dropWhile Char.isWhitespace).reverse

/-- Python `str.strip()` on `String`. -/
def stripS (s : String) : String :=
  String.mk (strip s.data)

/-- `MARKER = '<a id="mfai-\x7b0\x7d" href="#mfai-\x7b0\x7d"></a>'` rendered for one agent name. -/
def marker (name : List Char) : List Char :=
  "<a id=\"mfai-".data ++ (name ++ ("\" href=\"#mfai-".data ++ (name ++ "\"></a>".data)))

/-- Consume the literal `lit` from the front of the input, if present. -/
def dropLit : List Char → List Char → Option (List Char)
  | [], s => some s
  | _ :: _, [] => none
  | c :: cs, d :: ds => if d = c then dropLit cs ds else none

/-- Consume `\s+` (one or more whitespace characters) from the front. -/
def dropWs1 : List Char → Option (List Char)
  | [] => none
  | c :: cs => if c.isWhitespace then some (cs.dropWhile Char.isWhitespace) else none

/-- Split the input at the first occurrence of `q`: returns the characters
before `q` and those after it.  `none` when `q` does not occur.  Models the
greedy regex fragment `[^q]*q` (the caller checks nonemptiness for `+`). -/
def takeUntil (q : Char) : List Char → Option (List Char × List Char)
  | [] => none
  | c :: cs =>
    if c = q then some ([], cs)
    else
      match takeUntil q cs with
      | some (pre, rest) => some (c :: pre, rest)
      | none => none

/-- Stage of `MARKER_PATTERN` matching after `href="#mfai-[^"]+"`:
the remaining fragment `[^>]*></a>`. -/
def mnmTail2 (name : List Char) (rs7 : List Char × List Char) :
    Option (List Char × List Char) :=
  if rs7.1 = [] then none else
  (takeUntil '>' rs7.2).bind fun js8 =>
  (dropLit "</a>".data js8.2).map fun s9 => (name, s9)

/-- Stage of `MARKER_PATTERN` matching after the captured name:
the remaining fragment `"\s+href="#mfai-[^"]+"[^>]*></a>` (the name's
closing quote was consumed together with the capture). -/
def mnmTail (ns4 : List Char × List Char) : Option (List Char × List Char) :=
  if ns4.1 = [] then none else
  (dropWs1 ns4.2).bind fun s5 =>
  (dropLit "href=\"#mfai-".data s5).bind fun s6 =>
  (takeUntil '"' s6).bind (mnmTail2 ns4.1)

/-- Deterministic matcher for `MARKER_PATTERN =
`<a\s+id="mfai-([^"]+)"\s+href="#mfai-[^"]+"[^>]*></a>``, applied at the head
of the input.  Each bounded character class of the regex excludes its
delimiter, so leftmost greedy matching is deterministic and this matcher is
an exact transcription.  Returns the captured agent name and the input that
follows the match. -/
def matchNewMarker (s : List Char) : Option (List Char × List Char) :=
  (dropLit "<a".data s).bind fun s1 =>
  (dropWs1 s1).bind fun s2 =>
  (dropLit "id=\"mfai-".data s2).bind fun s3 =>
  (takeUntil '"' s3).bind mnmTail

/-- Deterministic matcher for `_LEGACY_MARKER_PATTERN =
`<div data-ai-agent="([^"]+)" style="display: none;"></div>``. -/
def matchLegacyMarker (s : List Char) : Option (List Char × List Char) :=
  (dropLit "<div data-ai-agent=\"".data s).bind fun s1 =>
  (takeUntil '"' s1).bind fun ns2 =>
  if ns2.1 = [] then none else
  (dropLit " style=\"display: none;\"></div>".data ns2.2).map fun s3 => (ns2.1, s3)

/-- The combined pattern `(?:MARKER_PATTERN)|(?:_LEGACY_MARKER_PATTERN)` of
`parse_entry_content`: alternation tries the current shape first. -/
def matchMarker (s : List Char) : Option (List Char × List Char) :=
  match matchNewMarker s with
  | some r => some r
  | none => matchLegacyMarker s

theorem length_dropWhile_le {α : Type} (p : α → Bool) (l : List α) :
    (l.dropWhile p).length ≤ l.length := by
  induction l with
  | nil => simp
  | cons c cs ih =>
    rw [List.dropWhile_cons]
    split
    · simp only [List.length_cons]
      omega
    · simp

theorem dropLit_length :
    ∀ (lit s r : List Char), dropLit lit s = some r → r.length ≤ s.length := by
  intro lit
  induction lit with
  | nil =>
    intro s r h
    simp [dropLit] at h
    simp [h]
  | cons c cs ih =>
    intro s r h
    cases s with
    | nil => simp [dropLit] at h
    | cons d ds =>
      simp only [dropLit] at h
      by_cases hd : d = c
      · simp only [hd, if_pos rfl] at h
        have := ih ds r h
        simp only [List.length_cons]
        omega
      · simp [hd] at h

theorem dropWs1_length :
    ∀ (s r : List Char), dropWs1 s = some r → r.length < s.length := by
  intro s r h
  cases s with
  | nil => simp [dropWs1] at h
  | cons c cs =>
    by_cases hc : c.isWhitespace
    · have h' : cs.dropWhile Char.isWhitespace = r := by
        simpa [dropWs1, hc] using h
      have hle : (cs.dropWhile Char.isWhitespace).length ≤ cs.length :=
        length_dropWhile_le Char.isWhitespace cs
      rw [← h']
      simp only [List.length_cons]
      omega
    · simp [dropWs1, hc] at h

theorem takeUntil_length :
    ∀ (q : Char) (s pre rest : List Char),
      takeUntil q s = some (pre, rest) → rest.length < s.length := by
  intro q s
  induction s with
  | nil => intro pre rest h; simp [takeUntil] at h
  | cons c cs ih =>
    intro pre rest h
    simp only [takeUntil] at h
    by_cases hc : c = q
    · have h' : rest = cs := by
        simp [hc] at h
        exact h.2.symm
      simp only [h', List.length_cons]
      omega
    · simp only [hc, if_false] at h
      cases htu : takeUntil q cs with
      | none => rw [htu] at h; simp at h
      | some pr =>
        rw [htu] at h
        simp only [Option.some.injEq] at h
        have := ih pr.1 pr.2 (by rw [htu])
        have hr : rest = pr.2 := by
          cases pr
          simp only [Prod.mk.injEq] at h
          exact h.2.symm
        simp only [hr, List.length_cons]
        omega

theorem matchNewMarker_length {s : List Char} {nr : List Char × List Char}
    (h : matchNewMarker s = some nr) : nr.2.length < s.length := by
  simp only [matchNewMarker, Option.bind_eq_some] at h
  obtain ⟨s1, h1, s2, h2, s3, h3, ns4, h4, h⟩ := h
  simp only [mnmTail] at h
  by_cases hn : ns4.1 = []
  · simp [hn] at h
  · simp only [hn, if_false, Option.bind_eq_some] at h
    obtain ⟨s5, h5, s6, h6, rs7, h7, h⟩ := h
    simp only [mnmTail2] at h
    by_cases hr : rs7.1 = []
    · simp [hr] at h
    · simp only [hr, if_false, Option.bind_eq_some] at h
      obtain ⟨js8, h8, h⟩ := h
      simp only [Option.map_eq_some'] at h
      obtain ⟨s9, h9, h⟩ := h
      have l9 := dropLit_length _ _ _ h9
      have l8 := takeUntil_length _ _ _ _ (by rw [h8] : takeUntil '>' rs7.2 = some (js8.1, js8.2))
      have l7 := takeUntil_length _ _ _ _ (by rw [h7] : takeUntil '"' s6 = some (rs7.1, rs7.2))
      have l6 := dropLit_length _ _ _ h6
      have l5 := dropWs1_length _ _ h5
      have l4 := takeUntil_length _ _ _ _ (by rw [h4] : takeUntil '"' s3 = some (ns4.1, ns4.2))
      have l3 := dropLit_length _ _ _ h3
      have l2 := dropWs1_length _ _ h2
      have l1 := dropLit_length _ _ _ h1
      have hnr : nr.2 = s9 := by rw [← h]
      rw [hnr]
      omega

theorem matchLegacyMarker_length {s : List Char} {nr : List Char × List Char}
    (h : matchLegacyMarker s = some nr) : nr.2.length < s.length := by
  simp only [matchLegacyMarker, Option.bind_eq_some] at h
  obtain ⟨s1, h1, ns2, h2, h⟩ := h
  by_cases hn : ns2.1 = []
  · simp [hn] at h
  · simp only [hn, if_false, Option.map_eq_some'] at h
    obtain ⟨s3, h3, h⟩ := h
    have l3 := dropLit_length _ _ _ h3
    have l2 := takeUntil_length _ _ _ _ (by rw [h2] : takeUntil '"' s1 = some (ns2.1, ns2.2))
    have l1 := dropLit_length _ _ _ h1
    have hnr : nr.2 = s3 := by rw [← h]
    rw [hnr]
    omega

theorem matchMarker_length {s : List Char} {nr : List Char × List Char}
    (h : matchMarker s = some nr) : nr.2.length < s.length := by
  simp only [matchMarker] at h
  cases hn : matchNewMarker s with
  | some r =>
    rw [hn] at h
    simp only [Option.some.injEq] at h
    exact h ▸ matchNewMarker_length hn
  | none =>
    rw [hn] at h
    exact matchLegacyMarker_length h

/-- The `re.finditer` loop of `parse_entry_content`: scan the input left to
right; each marker found yields a segment `(textBefore, agentName)`, and the
text after the last marker is returned as the trailing component.  Matches
are non-overlapping: scanning resumes after the end of each match. -/
def scanMarkers : List Char → List (List Char × List Char) × List Char
  | [] => ([], [])
  | c :: cs =>
    match h : matchMarker (c :: cs) with
    | some nr =>
      let p := scanMarkers nr.2
      (([], nr.1) :: p.1, p.2)
    | none =>
      let p := scanMarkers cs
      match p.1 with
      | [] => ([], c :: p.2)
      | seg :: more => ((c :: seg.1, seg.2) :: more, p.2)
termination_by s => s.length
decreasing_by
  · exact matchMarker_length h
  · simp

/-! ### Computation lemmas for the marker matchers -/

theorem dropLit_pre : ∀ (lit s : List Char), dropLit lit (lit ++ s) = some s := by
  intro lit
  induction lit with
  | nil => intro s; rfl
  | cons c cs ih => intro s; simp [dropLit, ih]

theorem takeUntil_pre (q : Char) (t r : List Char) (ht : q ∉ t) :
    takeUntil q (t ++ q :: r) = some (t, r) := by
  induction t with
  | nil => simp [takeUntil]
  | cons c cs ih =>
    have hc : ¬ c = q := by
      intro e
      exact ht (by simp [e])
    have ih' := ih (fun hm => ht (List.mem_cons_of_mem _ hm))
    simp only [List.cons_append, takeUntil, hc, if_false]
    show (match takeUntil q (cs ++ q :: r) with
      | some (pre, rest) => some (c :: pre, rest)
      | none => none) = some (c :: cs, r)
    rw [ih']

theorem matchNewMarker_marker (n r : List Char) (hn : ¬ n = []) (hq : '"' ∉ n) :
    matchNewMarker (marker n ++ r) = some (n, r) := by
  have hshape : marker n ++ r =
      "<a id=\"mfai-".data ++
        (n ++ ('"' :: (" href=\"#mfai-".data ++ (n ++ ('"' :: ("></a>".data ++ r)))))) := by
    simp only [marker, List.append_assoc]
    rfl
  have h1 : matchNewMarker ("<a id=\"mfai-".data ++
      (n ++ ('"' :: (" href=\"#mfai-".data ++ (n ++ ('"' :: ("></a>".data ++ r))))))) =
      (takeUntil '"'
        (n ++ ('"' :: (" href=\"#mfai-".data ++ (n ++ ('"' :: ("></a>".data ++ r))))))).bind
        mnmTail := rfl
  have h2 : takeUntil '"'
      (n ++ ('"' :: (" href=\"#mfai-".data ++ (n ++ ('"' :: ("></a>".data ++ r)))))) =
      some (n, " href=\"#mfai-".data ++ (n ++ ('"' :: ("></a>".data ++ r)))) :=
    takeUntil_pre _ _ _ hq
  have h3 : mnmTail (n, " href=\"#mfai-".data ++ (n ++ ('"' :: ("></a>".data ++ r)))) =
      (takeUntil '"' (n ++ ('"' :: ("></a>".data ++ r)))).bind (mnmTail2 n) := by
    simp only [mnmTail, hn, if_false]
    rfl
  have h4 : takeUntil '"' (n ++ ('"' :: ("></a>".data ++ r))) =
      some (n, "></a>".data ++ r) :=
    takeUntil_pre _ _ _ hq
  have h5 : mnmTail2 n (n, "></a>".data ++ r) = some (n, r) := by
    simp only [mnmTail2, hn, if_false]
    rfl
  rw [hshape, h1, h2, Option.some_bind, h3, h4, Option.some_bind, h5]

theorem matchMarker_marker (n r : List Char) (hn : ¬ n = []) (hq : '"' ∉ n) :
    matchMarker (marker n ++ r) = some (n, r) := by
  simp only [matchMarker, matchNewMarker_marker n r hn hq]

theorem matchNewMarker_cons_ne (c : Char) (cs : List Char) (hc : ¬ c = '<') :
    matchNewMarker (c :: cs) = none := by
  have hd : dropLit "<a".data (c :: cs) = none := by
    show (if c = '<' then dropLit "a".data cs else none) = none
    rw [if_neg hc]
  simp [matchNewMarker, hd]

theorem matchLegacyMarker_cons_ne (c : Char) (cs : List Char) (hc : ¬ c = '<') :
    matchLegacyMarker (c :: cs) = none := by
  have hd : dropLit "<div data-ai-agent=\"".data (c :: cs) = none := by
    show (if c = '<' then dropLit "div data-ai-agent=\"".data cs else none) = none
    rw [if_neg hc]
  simp [matchLegacyMarker, hd]

theorem matchMarker_cons_ne (c : Char) (cs : List Char) (hc : ¬ c = '<') :
    matchMarker (c :: cs) = none := by
  simp [matchMarker, matchNewMarker_cons_ne c cs hc, matchLegacyMarker_cons_ne c cs hc]

/-! ### Unfolding and composition lemmas for `scanMarkers` -/

theorem scanMarkers_nil : scanMarkers [] = ([], []) := by
  rw [scanMarkers]

theorem scanMarkers_cons_some {c : Char} {cs : List Char} {nr : List Char × List Char}
    (h : matchMarker (c :: cs) = some nr) :
    scanMarkers (c :: cs) = (([], nr.1) :: (scanMarkers nr.2).1, (scanMarkers nr.2).2) := by
  rw [scanMarkers]
  split
  · rename_i nr' h'
    rw [h] at h'
    simp only [Option.some.injEq] at h'
    rw [h']
  · rename_i h'
    rw [h] at h'
    exact absurd h' (by simp)

theorem scanMarkers_cons_none {c : Char} {cs : List Char}
    (h : matchMarker (c :: cs) = none) :
    scanMarkers (c :: cs) =
      match (scanMarkers cs).1 with
      | [] => ([], c :: (scanMarkers cs).2)
      | seg :: more => ((c :: seg.1, seg.2) :: more, (scanMarkers cs).2) := by
  rw [scanMarkers]
  split
  · rename_i nr' h'
    rw [h] at h'
    exact absurd h' (by simp)
  · rfl

/-- Segments-and-tail view of prefixing a marker-free text chunk: the chunk
is absorbed into the first segment when one exists, else into the tail. -/
def prependText (t : List Char) (p : List (List Char × List Char) × List Char) :
    List (List Char × List Char) × List Char :=
  match p.1 with
  | [] => ([], t ++ p.2)
  | seg :: more => ((t ++ seg.1, seg.2) :: more, p.2)

theorem prependText_nil (p : List (List Char × List Char) × List Char) :
    prependText [] p = p := by
  obtain ⟨segs, tail⟩ := p
  cases segs with
  | nil => rfl
  | cons seg more => rfl

theorem scanMarkers_text (t : List Char) (ht : ∀ c ∈ t, ¬ c = '<') :
    ∀ r : List Char, scanMarkers (t ++ r) = prependText t (scanMarkers r) := by
  induction t with
  | nil =>
    intro r
    rw [List.nil_append, prependText_nil]
  | cons c cs ih =>
    intro r
    have hc : ¬ c = '<' := ht c (by simp)
    have ih' := ih (fun d hd => ht d (List.mem_cons_of_mem _ hd)) r
    rw [List.cons_append, scanMarkers_cons_none (matchMarker_cons_ne c (cs ++ r) hc), ih']
    cases hsegs : (scanMarkers r).1 with
    | nil => simp [prependText, hsegs]
    | cons seg more => simp [prependText, hsegs]

theorem scanMarkers_no_marker (t : List Char) (ht : ∀ c ∈ t, ¬ c = '<') :
    scanMarkers t = ([], t) := by
  have := scanMarkers_text t ht []
  rw [List.append_nil] at this
  rw [this, scanMarkers_nil, prependText]
  simp

theorem scanMarkers_marker (n : List Char) (hn : ¬ n = []) (hq : '"' ∉ n)
    (r : List Char) :
    scanMarkers (marker n ++ r) =
      (([], n) :: (scanMarkers r).1, (scanMarkers r).2) := by
  have hm : marker n ++ r = '<' :: ("a id=\"mfai-".data ++
      (n ++ ("\" href=\"#mfai-".data ++ (n ++ ("\"></a>".data ++ r))))) := by
    simp only [marker, List.append_assoc]
    rfl
  have hmatch := matchMarker_marker n r hn hq
  rw [hm] at hmatch ⊢
  rw [scanMarkers_cons_some hmatch]

/-! ### Python `dict` model: association lists with insert-or-overwrite -/

/-- Python `d[k] = v`: overwrite in place when the key exists, else append. -/
def dictUpsert (k v : List Char) : List (List Char × List Char) → List (List Char × List Char)
  | [] => [(k, v)]
  | kv :: rest => if kv.1 = k then (k, v) :: rest else kv :: dictUpsert k v rest

/-- Python `d.get(k)` / `k in d`. -/
def dictLookup (k : List Char) : List (List Char × List Char) → Option (List Char)
  | [] => none
  | kv :: rest => if kv.1 = k then some kv.2 else dictLookup k rest

/-- One iteration of the `for i, match in enumerate(matches)` loop of
`parse_entry_content`: store the stripped preceding text under the agent
name when it is non-empty (`if agent_content:`). -/
def addSeg (d : List (List Char × List Char)) (seg : List Char × List Char) :
    List (List Char × List Char) :=
  let a := strip seg.1
  if a = [] then d else dictUpsert seg.2 a d

/-- `parse_entry_content(content)`: returns
`(original_content, existing_agent_content_dict)`.  With no marker matches
the whole body is returned unchanged with an empty dict; otherwise the text
before each marker (stripped, kept only when non-empty) is that marker's
agent content, and the stripped text after the last marker is the original
content. -/
def parse_entry_content (content : List Char) :
    List Char × List (List Char × List Char) :=
  let p := scanMarkers content
  if p.1 = [] then (content, [])
  else (strip p.2, p.1.foldl addSeg [])

/-- `build_ordered_content(agent_contents, original_content)`.  The canonical
agent order `config.agents.keys()` is passed explicitly as `agentsOrder`.
Returns the original content unchanged when the dict is empty; otherwise
appends, for each configured agent name present in the dict, its content
followed by its marker, and finally the original content. -/
def build_ordered_content (agentsOrder : List (List Char))
    (agent_contents : List (List Char × List Char))
    (original_content : List Char) : List Char :=
  if agent_contents = [] then original_content
  else
    (agentsOrder.map fun name =>
      match dictLookup name agent_contents with
      | some c => c ++ marker name
      | none => []).flatten ++ original_content

/-! ### Dict lemmas -/

theorem dictLookup_upsert (k k' v : List Char) :
    ∀ d, dictLookup k (dictUpsert k' v d) = if k' = k then some v else dictLookup k d := by
  intro d
  induction d with
  | nil =>
    simp [dictUpsert, dictLookup]
  | cons kv rest ih =>
    by_cases hk : kv.1 = k'
    · simp only [dictUpsert, hk, if_pos rfl, dictLookup]
      by_cases he : k' = k
      · simp [he]
      · have hkk : ¬ kv.1 = k := by rw [hk]; exact he
        simp [he, hkk]
    · simp only [dictUpsert, hk, if_false, dictLookup]
      by_cases hkk : kv.1 = k
      · have he : ¬ k' = k := by
          intro e
          exact hk (by rw [hkk, e])
        simp [hkk, he]
      · simp [hkk, ih]

theorem dictLookup_eq_none_iff (k : List Char) :
    ∀ d, dictLookup k d = none ↔ k ∉ d.map Prod.fst := by
  intro d
  induction d with
  | nil => simp [dictLookup]
  | cons kv rest ih =>
    by_cases hk : kv.1 = k
    · simp [dictLookup, hk]
    · simp [dictLookup, hk, ih, Ne.symm hk]

theorem mem_of_dictLookup_some {k v : List Char} :
    ∀ {d}, dictLookup k d = some v → (k, v) ∈ d := by
  intro d
  induction d with
  | nil => intro h; simp [dictLookup] at h
  | cons kv rest ih =>
    intro h
    obtain ⟨a, b⟩ := kv
    by_cases hk : a = k
    · subst hk
      have hb : b = v := by simpa [dictLookup] using h
      simp [hb]
    · have h' : dictLookup k rest = some v := by simpa [dictLookup, hk] using h
      exact List.mem_cons_of_mem _ (ih h')

theorem dictLookup_some_of_mem_nodup {k v : List Char} :
    ∀ {d}, (d.map Prod.fst).Nodup → (k, v) ∈ d → dictLookup k d = some v := by
  intro d
  induction d with
  | nil => intro _ h; simp at h
  | cons kv rest ih =>
    intro hnd hm
    rcases List.mem_cons.mp hm with he | hm'
    · rw [← he]
      simp [dictLookup]
    · have hk : ¬ kv.1 = k := by
        intro e
        have : k ∈ rest.map Prod.fst := by
          exact List.mem_map.mpr ⟨(k, v), hm', rfl⟩
        rw [List.map_cons, List.nodup_cons] at hnd
        exact hnd.1 (e ▸ this)
      simp only [dictLookup, hk, if_false]
      exact ih (by rw [List.map_cons, List.nodup_cons] at hnd; exact hnd.2) hm'

/-! ### The round-trip analysis -/

/-- The `(name, content)` pairs actually emitted by `build_ordered_content`:
canonical order restricted to the names present in the dict. -/
def emitted (agentsOrder : List (List Char)) (d : List (List Char × List Char)) :
    List (List Char × List Char) :=
  agentsOrder.filterMap fun name => (dictLookup name d).map fun v => (name, v)

theorem emitted_cons (n : List Char) (rest : List (List Char))
    (d : List (List Char × List Char)) :
    emitted (n :: rest) d =
      match dictLookup n d with
      | some v => (n, v) :: emitted rest d
      | none => emitted rest d := by
  simp only [emitted, List.filterMap_cons]
  cases dictLookup n d <;> simp

theorem build_eq_emitted (agentsOrder : List (List Char))
    (d : List (List Char × List Char)) (O : List Char) (hd : ¬ d = []) :
    build_ordered_content agentsOrder d O =
      ((emitted agentsOrder d).map fun p => p.2 ++ marker p.1).flatten ++ O := by
  rw [build_ordered_content, if_neg hd]
  congr 1
  induction agentsOrder with
  | nil => rfl
  | cons n rest ih =>
    rw [List.map_cons, List.flatten_cons, emitted_cons]
    cases hl : dictLookup n d with
    | some c => simp only [List.map_cons, List.flatten_cons, ih]
    | none => simp only [List.nil_append, ih]

theorem mem_emitted {agentsOrder : List (List Char)} {d : List (List Char × List Char)}
    {p : List Char × List Char} :
    p ∈ emitted agentsOrder d ↔ p.1 ∈ agentsOrder ∧ dictLookup p.1 d = some p.2 := by
  constructor
  · intro h
    obtain ⟨n, hn, hf⟩ := List.mem_filterMap.mp h
    cases hl : dictLookup n d with
    | some v =>
      rw [hl] at hf
      simp only [Option.map_some', Option.some.injEq] at hf
      rw [← hf]
      exact ⟨hn, hl⟩
    | none => rw [hl] at hf; simp at hf
  · intro ⟨h1, h2⟩
    exact List.mem_filterMap.mpr ⟨p.1, h1, by rw [h2]; simp⟩

theorem emitted_keys_sublist (d : List (List Char × List Char)) :
    ∀ agentsOrder, ((emitted agentsOrder d).map Prod.fst).Sublist agentsOrder := by
  intro agentsOrder
  induction agentsOrder with
  | nil => simp [emitted]
  | cons n rest ih =>
    simp only [emitted, List.filterMap_cons]
    cases hl : dictLookup n d with
    | some v =>
      simp only [Option.map_some', List.map_cons]
      exact List.Sublist.cons₂ n ih
    | none =>
      simp only [Option.map_none']
      exact List.Sublist.cons n ih

/-- Evaluating the scanner over an encoded body: each emitted chunk yields
one segment, and the original content survives as the trailing text. -/
theorem scanMarkers_chunks (L : List (List Char × List Char)) (O : List Char)
    (hnames : ∀ p ∈ L, ¬ p.1 = [] ∧ '"' ∉ p.1)
    (hvals : ∀ p ∈ L, ∀ c ∈ p.2, ¬ c = '<')
    (hO : ∀ c ∈ O, ¬ c = '<') :
    scanMarkers ((L.map fun p => p.2 ++ marker p.1).flatten ++ O) =
      (L.map fun p => (p.2, p.1), O) := by
  induction L with
  | nil =>
    simp only [List.map_nil, List.flatten_nil, List.nil_append]
    exact scanMarkers_no_marker O hO
  | cons p ps ih =>
    have ihp := ih (fun q hq => hnames q (List.mem_cons_of_mem _ hq))
      (fun q hq => hvals q (List.mem_cons_of_mem _ hq))
    have hp := hnames p (by simp)
    have hpv := hvals p (by simp)
    simp only [List.map_cons, List.flatten_cons]
    have hassoc : ((p.2 ++ marker p.1) ++ (List.map (fun q => q.2 ++ marker q.1) ps).flatten) ++ O
        = p.2 ++ (marker p.1 ++ ((List.map (fun q => q.2 ++ marker q.1) ps).flatten ++ O)) := by
      simp only [List.append_assoc]
    rw [hassoc, scanMarkers_text p.2 hpv, scanMarkers_marker p.1 hp.1 hp.2, ihp]
    simp [prependText]

theorem addSeg_lookup_ne {k name : List Char} (pre : List Char)
    (d : List (List Char × List Char)) (h : ¬ name = k) :
    dictLookup k (addSeg d (pre, name)) = dictLookup k d := by
  rw [addSeg]
  by_cases hsp : strip pre = []
  · simp [hsp]
  · simp [hsp, dictLookup_upsert, h]

/-- Replaying the dict-building loop of `parse_entry_content` over the
segments produced by decoding an encoded body (`(content, name)` pairs with
pairwise-distinct names). -/
theorem lookup_foldl_addSeg (L : List (List Char × List Char)) :
    ∀ (d : List (List Char × List Char)) (k : List Char),
      (L.map Prod.fst).Nodup →
      dictLookup k ((L.map fun p => (p.2, p.1)).foldl addSeg d) =
        match dictLookup k
            ((L.filter fun p => ¬ strip p.2 = []).map fun p => (p.1, strip p.2)) with
        | some v => some v
        | none => dictLookup k d := by
  induction L with
  | nil =>
    intro d k _
    simp [dictLookup]
  | cons p ps ih =>
    intro d k hnd
    have hnd' : (ps.map Prod.fst).Nodup := by
      rw [List.map_cons, List.nodup_cons] at hnd
      exact hnd.2
    rw [List.map_cons, List.foldl_cons, ih (addSeg d (p.2, p.1)) k hnd']
    by_cases hpk : p.1 = k
    · have hkps : k ∉ ps.map Prod.fst := by
        rw [List.map_cons, List.nodup_cons] at hnd
        exact fun hm => hnd.1 (hpk ▸ hm)
      have hps_none : dictLookup k
          ((ps.filter fun q => ¬ strip q.2 = []).map fun q => (q.1, strip q.2)) = none := by
        rw [dictLookup_eq_none_iff]
        intro hm
        rw [List.map_map] at hm
        obtain ⟨q, hq, hqe⟩ := List.mem_map.mp hm
        exact hkps (List.mem_map.mpr ⟨q, List.mem_of_mem_filter hq, hqe⟩)
      rw [hps_none]
      by_cases hsp : strip p.2 = []
      · have hf : (p :: ps).filter (fun q => ¬ strip q.2 = []) =
            ps.filter fun q => ¬ strip q.2 = [] := by
          simp [List.filter_cons, hsp]
        rw [hf, hps_none, addSeg]
        simp [hsp]
      · have hf : (p :: ps).filter (fun q => ¬ strip q.2 = []) =
            p :: (ps.filter fun q => ¬ strip q.2 = []) := by
          simp [List.filter_cons, hsp]
        rw [hf, List.map_cons]
        have hhead : dictLookup k
            ((p.1, strip p.2) :: (ps.filter fun q => ¬ strip q.2 = []).map
              fun q => (q.1, strip q.2)) = some (strip p.2) := by
          simp [dictLookup, hpk]
        rw [hhead, addSeg]
        simp [hsp, dictLookup_upsert, hpk]
    · have hdd : dictLookup k (addSeg d (p.2, p.1)) = dictLookup k d :=
        addSeg_lookup_ne p.2 d hpk
      rw [hdd]
      by_cases hsp : strip p.2 = []
      · have hf : (p :: ps).filter (fun q => ¬ strip q.2 = []) =
            ps.filter fun q => ¬ strip q.2 = [] := by
          simp [List.filter_cons, hsp]
        rw [hf]
      · have hf : (p :: ps).filter (fun q => ¬ strip q.2 = []) =
            p :: (ps.filter fun q => ¬ strip q.2 = []) := by
          simp [List.filter_cons, hsp]
        rw [hf, List.map_cons]
        have hhead : dictLookup k
            ((p.1, strip p.2) :: (ps.filter fun q => ¬ strip q.2 = []).map
              fun q => (q.1, strip q.2)) =
            dictLookup k ((ps.filter fun q => ¬ strip q.2 = []).map
              fun q => (q.1, strip q.2)) := by
          simp [dictLookup, hpk]
        rw [hhead]

theorem parse_no_marker (t : List Char) (ht : ∀ c ∈ t, ¬ c = '<') :
    parse_entry_content t = (t, []) := by
  simp only [parse_entry_content, scanMarkers_no_marker t ht]
  simp

/-- C1 (amended).  Codec round-trip: for every canonical agent-name order of
pairwise-distinct marker-safe names (non-empty, containing no `"`), every
agent-content map `M` with distinct keys all drawn from the order whose
values are strip-invariant and marker-free (no `<`), and every
strip-invariant marker-free original content `O`,
`parse_entry_content (build_ordered_content M O)` recovers `O` exactly and
an agent map that agrees (as a Python dict, i.e. under lookup) with `M`
restricted to entries whose values are non-empty.  The stated claim's
unconditional version is refuted by `c1_round_trip_counterexample`:
`parse_entry_content` strips whitespace, so an original content that is not
strip-invariant is not recovered exactly. -/
theorem c1_round_trip_amended
    (order : List (List Char)) (M : List (List Char × List Char)) (O : List Char)
    (hordNodup : order.Nodup)
    (hordSafe : ∀ n ∈ order, ¬ n = [] ∧ '"' ∉ n)
    (hMkeys : ∀ kv ∈ M, kv.1 ∈ order)
    (hMnodup : (M.map Prod.fst).Nodup)
    (hMvals : ∀ kv ∈ M, strip kv.2 = kv.2 ∧ ∀ c ∈ kv.2, ¬ c = '<')
    (hOstrip : strip O = O) (hOfree : ∀ c ∈ O, ¬ c = '<') :
    (parse_entry_content (build_ordered_content order M O)).1 = O ∧
    ∀ k, dictLookup k (parse_entry_content (build_ordered_content order M O)).2 =
      dictLookup k (M.filter fun kv => ¬ kv.2 = []) := by
  by_cases hM : M = []
  · subst hM
    have hb : build_ordered_content order [] O = O := by
      rw [build_ordered_content]
      simp
    rw [hb, parse_no_marker O hOfree]
    exact ⟨rfl, fun k => by simp [dictLookup]⟩
  · have hEnames : ∀ p ∈ emitted order M, ¬ p.1 = [] ∧ '"' ∉ p.1 := by
      intro p hp
      exact hordSafe p.1 ((mem_emitted.mp hp).1)
    have hEmem : ∀ p ∈ emitted order M, p ∈ M := by
      intro p hp
      exact mem_of_dictLookup_some ((mem_emitted.mp hp).2)
    have hEvals : ∀ p ∈ emitted order M, ∀ c ∈ p.2, ¬ c = '<' :=
      fun p hp => (hMvals p (hEmem p hp)).2
    have hEstrip : ∀ p ∈ emitted order M, strip p.2 = p.2 :=
      fun p hp => (hMvals p (hEmem p hp)).1
    obtain ⟨kv, hkv⟩ := List.exists_mem_of_ne_nil M hM
    have hkvE : kv ∈ emitted order M :=
      mem_emitted.mpr ⟨hMkeys kv hkv, dictLookup_some_of_mem_nodup hMnodup hkv⟩
    have hEne : ¬ emitted order M = [] := List.ne_nil_of_mem hkvE
    have hsegs_ne : ¬ ((emitted order M).map fun p => (p.2, p.1)) = [] := by
      simpa using hEne
    have hscan := scanMarkers_chunks (emitted order M) O hEnames hEvals hOfree
    have hparse : parse_entry_content
        (((emitted order M).map fun p => p.2 ++ marker p.1).flatten ++ O) =
        (strip O, ((emitted order M).map fun p => (p.2, p.1)).foldl addSeg []) := by
      simp only [parse_entry_content, hscan]
      rw [if_neg hsegs_ne]
    have hEkeysNodup : ((emitted order M).map Prod.fst).Nodup :=
      (emitted_keys_sublist M order).nodup hordNodup
    rw [build_eq_emitted order M O hM, hparse]
    refine ⟨hOstrip, fun k => ?_⟩
    rw [lookup_foldl_addSeg (emitted order M) [] k hEkeysNodup]
    have hfilter_eq : ((emitted order M).filter fun p => ¬ strip p.2 = []) =
        ((emitted order M).filter fun p => ¬ p.2 = []) := by
      apply List.filter_congr
      intro p hp
      simp [hEstrip p hp]
    have hmap_eq : (((emitted order M).filter fun p => ¬ p.2 = []).map
        fun p => (p.1, strip p.2)) = (emitted order M).filter fun p => ¬ p.2 = [] := by
      have hc : ∀ p ∈ ((emitted order M).filter fun p => ¬ p.2 = []),
          (fun p => (p.1, strip p.2)) p = id p := by
        intro p hp
        have hpe : p ∈ emitted order M := List.mem_of_mem_filter hp
        simp [hEstrip p hpe]
      rw [List.map_congr_left hc, List.map_id]
    rw [hfilter_eq, hmap_eq]
    have hEfNodup : (((emitted order M).filter fun p => ¬ p.2 = []).map Prod.fst).Nodup :=
      ((List.filter_sublist (emitted order M)).map Prod.fst).nodup hEkeysNodup
    cases hMk : dictLookup k (M.filter fun kv => ¬ kv.2 = []) with
    | some v =>
      have hmem : (k, v) ∈ M.filter fun kv => ¬ kv.2 = [] := mem_of_dictLookup_some hMk
      have hmemM : (k, v) ∈ M := List.mem_of_mem_filter hmem
      have hvne : ¬ v = [] := by simpa using (List.mem_filter.mp hmem).2
      have hlk : dictLookup k M = some v := dictLookup_some_of_mem_nodup hMnodup hmemM
      have hkE : (k, v) ∈ emitted order M := mem_emitted.mpr ⟨hMkeys (k, v) hmemM, hlk⟩
      have hkEf : (k, v) ∈ (emitted order M).filter fun p => ¬ p.2 = [] :=
        List.mem_filter.mpr ⟨hkE, by simpa using hvne⟩
      rw [dictLookup_some_of_mem_nodup hEfNodup hkEf]
    | none =>
      have hnoneE : dictLookup k ((emitted order M).filter fun p => ¬ p.2 = []) = none := by
        cases hEk : dictLookup k ((emitted order M).filter fun p => ¬ p.2 = []) with
        | none => rfl
        | some v =>
          have hmem := mem_of_dictLookup_some hEk
          have hkE : (k, v) ∈ emitted order M := List.mem_of_mem_filter hmem
          have hvne : ¬ v = [] := by simpa using (List.mem_filter.mp hmem).2
          have hlk : dictLookup k M = some v := (mem_emitted.mp hkE).2
          have hmemM : (k, v) ∈ M := mem_of_dictLookup_some hlk
          have hmemf : (k, v) ∈ M.filter fun kv => ¬ kv.2 = [] :=
            List.mem_filter.mpr ⟨hmemM, by simpa using hvne⟩
          have hkmem : k ∈ (M.filter fun kv => ¬ kv.2 = []).map Prod.fst :=
            List.mem_map.mpr ⟨(k, v), hmemf, rfl⟩
          rw [dictLookup_eq_none_iff] at hMk
          exact absurd hkmem hMk
      rw [hnoneE]
      simp [dictLookup]

/-- C1 (witness).  The amended round-trip theorem applied at the concrete
order `["s"]`, map `{"s": "b"}` and original content `"x"`; every
hypothesis is discharged by computation. -/
theorem c1_round_trip_amended_witness :
    (parse_entry_content (build_ordered_content ["s".data]
      [("s".data, "b".data)] "x".data)).1 = "x".data ∧
    ∀ k, dictLookup k (parse_entry_content (build_ordered_content ["s".data]
        [("s".data, "b".data)] "x".data)).2 =
      dictLookup k ([("s".data, "b".data)].filter fun kv => ¬ kv.2 = []) :=
  c1_round_trip_amended ["s".data] [("s".data, "b".data)] "x".data
    (by decide) (by decide) (by decide) (by decide) (by decide) (by decide) (by decide)

/-- C1 (counterexample).  The claim as stated quantifies over every original
content string `O`.  Taking the canonical order `["s"]`, the map
`{"s": "b"}` and `O = " x"` (with a leading space), the decoded original
content is `"x"`, not `" x"`: `parse_entry_content` strips the text after
the last marker, so `decode (encode M O order) ≠ (O, …)`. -/
theorem c1_round_trip_counterexample :
    (parse_entry_content (build_ordered_content ["s".data]
      [("s".data, "b".data)] " x".data)).1 ≠ " x".data := by
  have hb : build_ordered_content ["s".data] [("s".data, "b".data)] " x".data =
      "b".data ++ (marker "s".data ++ " x".data) := by decide
  have h1 : scanMarkers (marker "s".data ++ " x".data) =
      (([], "s".data) :: (scanMarkers " x".data).1, (scanMarkers " x".data).2) :=
    scanMarkers_marker "s".data (by decide) (by decide) " x".data
  have h2 : scanMarkers " x".data = ([], " x".data) :=
    scanMarkers_no_marker " x".data (by decide)
  have hscan : scanMarkers ("b".data ++ (marker "s".data ++ " x".data)) =
      ([("b".data, "s".data)], " x".data) := by
    rw [scanMarkers_text "b".data (by decide) _, h1, h2]
    decide
  rw [hb]
  simp only [parse_entry_content, hscan]
  decide

/-! ### The entry model and `content_helper.py` caching

An entry is the Miniflux article dict.  The `_mfai_cache` key that
`_get_cache` injects is modelled as an `Option EntryCache` field: `none`
means the key is absent, `some c` that it is present with contents `c`.
The BeautifulSoup HTML stripper (`get_clean_content`) and the tiktoken
tokenizer are external collaborators, abstracted as the explicit parameters
`cleanContent` and `tokenCount`. -/

structure Feed where
  site_url : String := ""
  title : String := ""
  category_title : String := ""
deriving DecidableEq

structure EntryCache where
  content_text : Option String := none
  content_length : Option Nat := none
deriving DecidableEq

structure Entry where
  id : Int := 0
  title : String := ""
  url : String := ""
  author : String := ""
  tags : List String := []
  feed : Feed := {}
  content : String := ""
  mfai_cache : Option EntryCache := none
deriving DecidableEq

/-- `get_content_text(entry)`: return the cached plain text, else strip the
HTML and cache the result.  `_get_cache` creates the cache dict when absent,
so the cache key is present in the returned entry either way. -/
def get_content_text (cleanContent : String → String) (e : Entry) : String × Entry :=
  let cache := e.mfai_cache.getD {}
  match cache.content_text with
  | some v => (v, { e with mfai_cache := some cache })
  | none =>
    let v := cleanContent e.content
    (v, { e with mfai_cache := some { cache with content_text := some v } })

/-- `' '.join(content_text.split())`: collapse whitespace runs. -/
def normalizeWs (s : String) : String :=
  String.intercalate " " ((s.split Char.isWhitespace).filter fun t => ¬ t = "")

/-- `get_content_length(entry)`: token count of the whitespace-normalized
plain text, cached in the entry. -/
def get_content_length (cleanContent : String → String) (tokenCount : String → Nat)
    (e : Entry) : Nat × Entry :=
  let cache := e.mfai_cache.getD {}
  match cache.content_length with
  | some n => (n, { e with mfai_cache := some cache })
  | none =>
    let p := get_content_text cleanContent e
    let n := tokenCount (normalizeWs p.1)
    let cache1 := p.2.mfai_cache.getD {}
    (n, { p.2 with mfai_cache := some { cache1 with content_length := some n } })

/-! ### rule_matcher.py -/

def FIELD_ENTRY_TITLE : String := "EntryTitle"

def FIELD_ENTRY_URL : String := "EntryURL"

def FIELD_ENTRY_CONTENT : String := "EntryContent"

def FIELD_ENTRY_AUTHOR : String := "EntryAuthor"

def FIELD_ENTRY_TAG : String := "EntryTag"

def FIELD_ENTRY_CONTENT_LENGTH : String := "EntryContentLength"

def FIELD_FEED_SITE_URL : String := "FeedSiteUrl"

def FIELD_FEED_TITLE : String := "FeedTitle"

def FIELD_FEED_CATEGORY_TITLE : String := "FeedCategoryTitle"

def FIELD_NEVER_MATCH : String := "NeverMatch"

def SUPPORTED_FIELDS : List String :=
  [FIELD_ENTRY_TITLE, FIELD_ENTRY_URL, FIELD_ENTRY_CONTENT, FIELD_ENTRY_AUTHOR,
   FIELD_ENTRY_TAG, FIELD_ENTRY_CONTENT_LENGTH, FIELD_FEED_SITE_URL,
   FIELD_FEED_TITLE, FIELD_FEED_CATEGORY_TITLE, FIELD_NEVER_MATCH]

def containsChar (s : String) (c : Char) : Bool :=
  decide (c ∈ s.data)

/-- Python `s.split(c, 1)` when `c` occurs in `s`. -/
def splitOnceAt (c : Char) (s : List Char) : List Char × List Char :=
  match takeUntil c s with
  | some pr => pr
  | none => (s, [])

/-- `parse_rule(rule_string)`: `None` for an empty string, a string without
`'='`, an unsupported field name, or an empty pattern on a field other than
`NeverMatch`; otherwise the stripped `(field_name, pattern)` pair. -/
def parse_rule (rule_string : String) : Option (String × String) :=
  if rule_string = "" ∨ ¬ containsChar rule_string '=' then none
  else
    let fp := splitOnceAt '=' rule_string.data
    let field_name := stripS (String.mk fp.1)
    let pattern := stripS (String.mk fp.2)
    if ¬ field_name ∈ SUPPORTED_FIELDS then none
    else if pattern = "" ∧ ¬ field_name = FIELD_NEVER_MATCH then none
    else some (field_name, pattern)

/-- `get_entry_field_value(entry, field_name)`: dispatch on the field name;
the `EntryContent` branch strips HTML via `get_content_text` and may fill
the entry's cache, so the (possibly updated) entry is returned as well. -/
def get_entry_field_value (cleanContent : String → String) (e : Entry)
    (field_name : String) : String × Entry :=
  if field_name = FIELD_ENTRY_TITLE then (e.title, e)
  else if field_name = FIELD_ENTRY_URL then (e.url, e)
  else if field_name = FIELD_ENTRY_CONTENT then get_content_text cleanContent e
  else if field_name = FIELD_ENTRY_AUTHOR then (e.author, e)
  else if field_name = FIELD_ENTRY_TAG then
    (if e.tags = [] then "" else String.intercalate "," e.tags, e)
  else if field_name = FIELD_FEED_SITE_URL then (e.feed.site_url, e)
  else if field_name = FIELD_FEED_TITLE then (e.feed.title, e)
  else if field_name = FIELD_FEED_CATEGORY_TITLE then (e.feed.category_title, e)
  else ("", e)

def parseDigits (l : List Char) : Option Nat :=
  if ¬ l = [] ∧ l.all Char.isDigit then
    some (l.foldl (fun n c => 10 * n + (c.toNat - '0'.toNat)) 0)
  else none

/-- Python `int(s)`: surrounding whitespace tolerated, optional single sign,
then at least one ASCII digit; anything else raises `ValueError`, modelled
as `none`.  (Python additionally accepts underscore digit separators and
non-ASCII decimal digits; those exotic forms are outside this model.) -/
def pyInt (s : List Char) : Option Int :=
  match strip s with
  | '+' :: ds => (parseDigits ds).map fun n => (n : Int)
  | '-' :: ds => (parseDigits ds).map fun n => -(n : Int)
  | ds => (parseDigits ds).map fun n => (n : Int)

/-- The operator dispatch of `_match_content_length`: `gt:`/`ge:`/`lt:`/
`le:`/`eq:` compare against one integer, `between:lo,hi` is an inclusive
range, anything else (unknown operator, missing comma, non-integer bound)
does not match. -/
def lengthOpMatches (content_length : Int) (op : List Char) : Bool :=
  if "gt:".data.isPrefixOf op then
    match pyInt (op.drop 3) with
    | some t => decide (content_length > t)
    | none => false
  else if "ge:".data.isPrefixOf op then
    match pyInt (op.drop 3) with
    | some t => decide (content_length ≥ t)
    | none => false
  else if "lt:".data.isPrefixOf op then
    match pyInt (op.drop 3) with
    | some t => decide (content_length < t)
    | none => false
  else if "le:".data.isPrefixOf op then
    match pyInt (op.drop 3) with
    | some t => decide (content_length ≤ t)
    | none => false
  else if "eq:".data.isPrefixOf op then
    match pyInt (op.drop 3) with
    | some t => decide (content_length = t)
    | none => false
  else if "between:".data.isPrefixOf op then
    let range_str := op.drop 8
    if ¬ range_str.contains ',' then false
    else
      match takeUntil ',' range_str with
      | some pr =>
        match pyInt pr.1, pyInt pr.2 with
        | some lo, some hi => decide (lo ≤ content_length ∧ content_length ≤ hi)
        | _, _ => false
      | none => false
  else false

/-- `_match_content_length(entry, operator)`: compute (and cache) the token
count, then evaluate the operator expression against it. -/
def _match_content_length (cleanContent : String → String) (tokenCount : String → Nat)
    (e : Entry) (operator : String) : Bool × Entry :=
  let p := get_content_length cleanContent tokenCount e
  (lengthOpMatches (p.1 : Int) operator.data, p.2)

/-- `_match_any_rule(entry, rules)`: first valid matching rule wins; invalid
rules are skipped; the Python regex engine `re.search` is abstracted as
`research`, returning `Except.error ()` where the pattern raises
`re.error` and `Except.ok b` for a match/no-match result. -/
def _match_any_rule (cleanContent : String → String) (tokenCount : String → Nat)
    (research : String → String → Except Unit Bool) :
    Entry → List String → Bool × Entry
  | e, [] => (false, e)
  | e, rule_string :: rest =>
    match parse_rule rule_string with
    | none => _match_any_rule cleanContent tokenCount research e rest
    | some fp =>
      if fp.1 = FIELD_NEVER_MATCH then
        _match_any_rule cleanContent tokenCount research e rest
      else if fp.1 = FIELD_ENTRY_CONTENT_LENGTH then
        let p := _match_content_length cleanContent tokenCount e fp.2
        if p.1 then (true, p.2)
        else _match_any_rule cleanContent tokenCount research p.2 rest
      else
        let fv := get_entry_field_value cleanContent e fp.1
        match research fp.2 fv.1 with
        | Except.ok true => (true, fv.2)
        | Except.ok false => _match_any_rule cleanContent tokenCount research fv.2 rest
        | Except.error _ => _match_any_rule cleanContent tokenCount research fv.2 rest

/-- `match_rules(entry, allow_rules, deny_rules)`: deny first (any match
blocks), then allow (must match when non-empty), else keep. -/
def match_rules (cleanContent : String → String) (tokenCount : String → Nat)
    (research : String → String → Except Unit Bool) (e : Entry)
    (allow_rules deny_rules : List String) : Bool × Entry :=
  if ¬ deny_rules = [] then
    let p := _match_any_rule cleanContent tokenCount research e deny_rules
    if p.1 then (false, p.2)
    else if ¬ allow_rules = [] then
      _match_any_rule cleanContent tokenCount research p.2 allow_rules
    else (true, p.2)
  else if ¬ allow_rules = [] then
    _match_any_rule cleanContent tokenCount research e allow_rules
  else (true, e)

/-- Specification-level "the article matches this one valid rule", evaluated
against the article's original state (cache fills do not change it, which
`matchOneRule_sameView` proves). -/
def matchOneRule (cleanContent : String → String) (tokenCount : String → Nat)
    (research : String → String → Except Unit Bool) (e : Entry) (r : String) : Bool :=
  match parse_rule r with
  | none => false
  | some fp =>
    if fp.1 = FIELD_NEVER_MATCH then false
    else if fp.1 = FIELD_ENTRY_CONTENT_LENGTH then
      (_match_content_length cleanContent tokenCount e fp.2).1
    else
      match research fp.2 (get_entry_field_value cleanContent e fp.1).1 with
      | Except.ok b => b
      | Except.error _ => false

/-! ### Cache-fill invariance

Rule evaluation threads the entry through each step because the content
helpers may fill `_mfai_cache`.  `sameView` says two entry states present
the same article: all non-cache fields agree and the content text / content
length reads agree.  Every evaluation step's output state is `sameView` to
its input, and every rule's verdict only depends on the `sameView` class. -/

def sameView (cc : String → String) (tc : String → Nat) (e e' : Entry) : Prop :=
  e'.id = e.id ∧ e'.title = e.title ∧ e'.url = e.url ∧ e'.author = e.author ∧
  e'.tags = e.tags ∧ e'.feed = e.feed ∧ e'.content = e.content ∧
  (get_content_text cc e').1 = (get_content_text cc e).1 ∧
  (get_content_length cc tc e').1 = (get_content_length cc tc e).1

theorem sameView_refl (cc : String → String) (tc : String → Nat) (e : Entry) :
    sameView cc tc e e :=
  ⟨rfl, rfl, rfl, rfl, rfl, rfl, rfl, rfl, rfl⟩

theorem sameView_trans {cc : String → String} {tc : String → Nat} {e e' e'' : Entry}
    (h1 : sameView cc tc e e') (h2 : sameView cc tc e' e'') : sameView cc tc e e'' := by
  obtain ⟨a1, a2, a3, a4, a5, a6, a7, a8, a9⟩ := h1
  obtain ⟨b1, b2, b3, b4, b5, b6, b7, b8, b9⟩ := h2
  exact ⟨b1.trans a1, b2.trans a2, b3.trans a3, b4.trans a4, b5.trans a5,
    b6.trans a6, b7.trans a7, b8.trans a8, b9.trans a9⟩

theorem gct_sameView (cc : String → String) (tc : String → Nat) (e : Entry) :
    sameView cc tc e (get_content_text cc e).2 := by
  cases hm : e.mfai_cache with
  | none =>
    simp [sameView, get_content_text, get_content_length, hm]
  | some c =>
    cases ht : c.content_text with
    | some v =>
      simp [sameView, get_content_text, get_content_length, hm, ht]
    | none =>
      cases hl : c.content_length with
      | some n => simp [sameView, get_content_text, get_content_length, hm, ht, hl]
      | none => simp [sameView, get_content_text, get_content_length, hm, ht, hl]

theorem gcl_sameView (cc : String → String) (tc : String → Nat) (e : Entry) :
    sameView cc tc e (get_content_length cc tc e).2 := by
  cases hm : e.mfai_cache with
  | none =>
    simp [sameView, get_content_text, get_content_length, hm]
  | some c =>
    cases hl : c.content_length with
    | some n =>
      cases ht : c.content_text with
      | some v => simp [sameView, get_content_text, get_content_length, hm, ht, hl]
      | none => simp [sameView, get_content_text, get_content_length, hm, ht, hl]
    | none =>
      cases ht : c.content_text with
      | some v => simp [sameView, get_content_text, get_content_length, hm, ht, hl]
      | none => simp [sameView, get_content_text, get_content_length, hm, ht, hl]

theorem gefv_snd_cases (cc : String → String) (e : Entry) (f : String) :
    (get_entry_field_value cc e f).2 = e ∨
    (get_entry_field_value cc e f).2 = (get_content_text cc e).2 := by
  rw [get_entry_field_value]
  split_ifs <;> simp

theorem gefv_sameView (cc : String → String) (tc : String → Nat) (e : Entry)
    (f : String) : sameView cc tc e (get_entry_field_value cc e f).2 := by
  rcases gefv_snd_cases cc e f with h | h
  · rw [h]; exact sameView_refl cc tc e
  · rw [h]; exact gct_sameView cc tc e

theorem gefv_fst_sameView (cc : String → String) (tc : String → Nat) {e e' : Entry}
    (h : sameView cc tc e e') (f : String) :
    (get_entry_field_value cc e' f).1 = (get_entry_field_value cc e f).1 := by
  obtain ⟨h1, h2, h3, h4, h5, h6, h7, h8, h9⟩ := h
  rw [get_entry_field_value, get_entry_field_value]
  simp only [h2, h3, h4, h5, h6, h8]
  split_ifs <;> first | rfl | exact h8

theorem mcl_fst_sameView (cc : String → String) (tc : String → Nat) {e e' : Entry}
    (h : sameView cc tc e e') (op : String) :
    (_match_content_length cc tc e' op).1 = (_match_content_length cc tc e op).1 := by
  obtain ⟨_, _, _, _, _, _, _, _, h9⟩ := h
  simp [_match_content_length, h9]

theorem mcl_sameView (cc : String → String) (tc : String → Nat) (e : Entry)
    (op : String) : sameView cc tc e (_match_content_length cc tc e op).2 :=
  gcl_sameView cc tc e

theorem matchOneRule_sameView (cc : String → String) (tc : String → Nat)
    (research : String → String → Except Unit Bool) {e e' : Entry}
    (h : sameView cc tc e e') (r : String) :
    matchOneRule cc tc research e' r = matchOneRule cc tc research e r := by
  rw [matchOneRule, matchOneRule]
  cases parse_rule r with
  | none => rfl
  | some fp =>
    simp only
    split_ifs with hnever hlen
    · rfl
    · exact mcl_fst_sameView cc tc h fp.2
    · rw [gefv_fst_sameView cc tc h fp.1]

theorem mar_sameView (cc : String → String) (tc : String → Nat)
    (research : String → String → Except Unit Bool) :
    ∀ (rs : List String) (e : Entry),
      sameView cc tc e (_match_any_rule cc tc research e rs).2 := by
  intro rs
  induction rs with
  | nil => intro e; exact sameView_refl cc tc e
  | cons r rest ih =>
    intro e
    rw [_match_any_rule]
    cases hp : parse_rule r with
    | none => exact ih e
    | some fp =>
      simp only
      by_cases h1 : fp.1 = FIELD_NEVER_MATCH
      · rw [if_pos h1]
        exact ih e
      · rw [if_neg h1]
        by_cases h2 : fp.1 = FIELD_ENTRY_CONTENT_LENGTH
        · rw [if_pos h2]
          cases hb : (_match_content_length cc tc e fp.2).1 with
          | true =>
            rw [if_pos rfl]
            exact mcl_sameView cc tc e fp.2
          | false =>
            rw [if_neg (by simp)]
            exact sameView_trans (mcl_sameView cc tc e fp.2) (ih _)
        · rw [if_neg h2]
          cases hr : research fp.2 (get_entry_field_value cc e fp.1).1 with
          | ok b =>
            cases b with
            | true => exact gefv_sameView cc tc e fp.1
            | false => exact sameView_trans (gefv_sameView cc tc e fp.1) (ih _)
          | error u => exact sameView_trans (gefv_sameView cc tc e fp.1) (ih _)

theorem mar_any (cc : String → String) (tc : String → Nat)
    (research : String → String → Except Unit Bool) :
    ∀ (rs : List String) (e : Entry),
      (_match_any_rule cc tc research e rs).1 =
        rs.any (matchOneRule cc tc research e) := by
  intro rs
  induction rs with
  | nil => intro e; simp [_match_any_rule]
  | cons r rest ih =>
    intro e
    rw [List.any_cons, _match_any_rule, matchOneRule]
    cases hp : parse_rule r with
    | none => rw [ih e]; simp
    | some fp =>
      simp only
      by_cases h1 : fp.1 = FIELD_NEVER_MATCH
      · rw [if_pos h1, if_pos h1, ih e]
        simp
      · rw [if_neg h1, if_neg h1]
        by_cases h2 : fp.1 = FIELD_ENTRY_CONTENT_LENGTH
        · rw [if_pos h2, if_pos h2]
          cases hb : (_match_content_length cc tc e fp.2).1 with
          | true =>
            rw [if_pos rfl]
            simp
          | false =>
            have hfun : matchOneRule cc tc research (_match_content_length cc tc e fp.2).2 =
                matchOneRule cc tc research e :=
              funext fun r' =>
                matchOneRule_sameView cc tc research (mcl_sameView cc tc e fp.2) r'
            rw [if_neg (by simp), ih _, hfun]
            simp
        · rw [if_neg h2, if_neg h2]
          cases hr : research fp.2 (get_entry_field_value cc e fp.1).1 with
          | ok b =>
            cases b with
            | true => simp
            | false =>
              have hfun : matchOneRule cc tc research (get_entry_field_value cc e fp.1).2 =
                  matchOneRule cc tc research e :=
                funext fun r' =>
                  matchOneRule_sameView cc tc research (gefv_sameView cc tc e fp.1) r'
              rw [ih _, hfun]
              simp
          | error u =>
            have hfun : matchOneRule cc tc research (get_entry_field_value cc e fp.1).2 =
                matchOneRule cc tc research e :=
              funext fun r' =>
                matchOneRule_sameView cc tc research (gefv_sameView cc tc e fp.1) r'
            rw [ih _, hfun]
            simp

/-- C2.  `match_rules` implements deny-first, allow-exclusive rule
precedence: the verdict is `false` when the deny list is non-empty and the
article matches some valid deny rule (regardless of the allow list);
otherwise, with a non-empty allow list, the verdict is exactly "the article
matches some valid allow rule"; with no allow rules the default is `true`.
`matchOneRule` is the per-rule verdict on the article's original state, so
invalid rules never count as matches. -/
theorem c2_match_rules_deny_precedence (cc : String → String) (tc : String → Nat)
    (research : String → String → Except Unit Bool) (e : Entry)
    (allow_rules deny_rules : List String) :
    (match_rules cc tc research e allow_rules deny_rules).1 =
      if ¬ deny_rules = [] ∧ deny_rules.any (matchOneRule cc tc research e) = true then
        false
      else if ¬ allow_rules = [] then allow_rules.any (matchOneRule cc tc research e)
      else true := by
  simp only [match_rules]
  by_cases hd : deny_rules = []
  · rw [if_neg (not_not_intro hd)]
    by_cases ha : allow_rules = []
    · rw [if_neg (not_not_intro ha)]
      simp [hd, ha]
    · rw [if_pos ha, mar_any]
      simp [hd, ha]
  · rw [if_pos hd]
    cases hm : (_match_any_rule cc tc research e deny_rules).1 with
    | true =>
      rw [if_pos rfl]
      have hdany : deny_rules.any (matchOneRule cc tc research e) = true := by
        rw [← mar_any]
        exact hm
      simp [hd, hdany]
    | false =>
      rw [if_neg (by simp)]
      have hdany : deny_rules.any (matchOneRule cc tc research e) = false := by
        rw [← mar_any]
        exact hm
      by_cases ha : allow_rules = []
      · rw [if_neg (not_not_intro ha)]
        simp [hd, ha, hdany]
      · rw [if_pos ha, mar_any]
        have hfun : matchOneRule cc tc research
            (_match_any_rule cc tc research e deny_rules).2 =
            matchOneRule cc tc research e :=
          funext fun r' => matchOneRule_sameView cc tc research
            (mar_sameView cc tc research deny_rules e) r'
        rw [hfun]
        simp [hd, ha, hdany]

theorem match_rules_sameView (cc : String → String) (tc : String → Nat)
    (research : String → String → Except Unit Bool) (e : Entry)
    (allow_rules deny_rules : List String) :
    sameView cc tc e (match_rules cc tc research e allow_rules deny_rules).2 := by
  simp only [match_rules]
  by_cases hd : deny_rules = []
  · rw [if_neg (not_not_intro hd)]
    by_cases ha : allow_rules = []
    · rw [if_neg (not_not_intro ha)]
      exact sameView_refl cc tc e
    · rw [if_pos ha]
      exact mar_sameView cc tc research allow_rules e
  · rw [if_pos hd]
    cases hm : (_match_any_rule cc tc research e deny_rules).1 with
    | true =>
      rw [if_pos rfl]
      exact mar_sameView cc tc research deny_rules e
    | false =>
      rw [if_neg (by simp)]
      by_cases ha : allow_rules = []
      · rw [if_neg (not_not_intro ha)]
        exact mar_sameView cc tc research deny_rules e
      · rw [if_pos ha]
        exact sameView_trans (mar_sameView cc tc research deny_rules e)
          (mar_sameView cc tc research allow_rules _)

/-- An entry with the `_mfai_cache` key removed: the article as the feed
service sees it. -/
def clearCache (e : Entry) : Entry :=
  { e with mfai_cache := none }

theorem sameView_clearCache {cc : String → String} {tc : String → Nat}
    {e e' : Entry} (h : sameView cc tc e e') : clearCache e' = clearCache e := by
  obtain ⟨h1, h2, h3, h4, h5, h6, h7, _, _⟩ := h
  simp only [clearCache]
  rw [h1, h2, h3, h4, h5, h6, h7]

/-- C5 (amended).  Rule matching is pure with respect to every article field
except the internal `_mfai_cache` entry: for every article, every rule pair
and every collaborator behaviour, the entry after `match_rules` agrees with
the input entry once the cache key is erased.  The claim's stronger version
(no field added at all) is refuted by `c5_match_rules_mutates_cache`: a rule
referencing the content field injects the cache key into the article. -/
theorem c5_match_rules_pure_modulo_cache (cc : String → String) (tc : String → Nat)
    (research : String → String → Except Unit Bool) (e : Entry)
    (allow_rules deny_rules : List String) :
    clearCache (match_rules cc tc research e allow_rules deny_rules).2 = clearCache e :=
  sameView_clearCache (match_rules_sameView cc tc research e allow_rules deny_rules)

/-- C5 (counterexample).  Evaluating `match_rules` on an article without the
cache key against the single allow rule `EntryContent=a` returns an article
that differs from the input: the `_mfai_cache` key has been added (the claim
says no field is added, removed or modified). -/
theorem c5_match_rules_mutates_cache :
    (match_rules (fun s => s) (fun s => s.length) (fun _ _ => Except.ok false)
      {} ["EntryContent=a"] []).2 ≠ ({} : Entry) := by
  decide

/-- C6.  Malformed rules are skipped, never raise, and never abort the rest
of the list.  Parts 1–3: a rule without `'='`, with an unsupported field
name, or with an empty pattern on a non-sentinel field fails `parse_rule`.
Part 4: prefixing a rule list with any such unparsable rule, any
content-length rule whose operator expression never matches (which covers
every syntactically invalid operator), or any regex rule whose pattern the
regex engine rejects, leaves the match verdict of the remaining rules
unchanged — the bad rule counts neither as a match nor as a non-match, and
every remaining rule is still evaluated.  (All functions are total, so no
evaluation can raise.) -/
theorem c6_malformed_rule_skipped (cc : String → String) (tc : String → Nat)
    (research : String → String → Except Unit Bool) :
    (∀ r : String, '=' ∉ r.data → parse_rule r = none) ∧
    (∀ f p : String, '=' ∉ f.data → ¬ stripS f ∈ SUPPORTED_FIELDS →
      parse_rule (f ++ "=" ++ p) = none) ∧
    (∀ f p : String, '=' ∉ f.data → stripS p = "" →
      ¬ stripS f = FIELD_NEVER_MATCH → parse_rule (f ++ "=" ++ p) = none) ∧
    (∀ (e : Entry) (bad : String) (rest : List String),
      (parse_rule bad = none ∨
        (∃ p, parse_rule bad = some (FIELD_ENTRY_CONTENT_LENGTH, p) ∧
          ∀ n : Int, lengthOpMatches n p.data = false) ∨
        (∃ f p, parse_rule bad = some (f, p) ∧ ¬ f = FIELD_NEVER_MATCH ∧
          ¬ f = FIELD_ENTRY_CONTENT_LENGTH ∧ ∀ s, research p s = Except.error ())) →
      (_match_any_rule cc tc research e (bad :: rest)).1 =
        (_match_any_rule cc tc research e rest).1) := by
  have hdata : ∀ f p : String, (f ++ "=" ++ p).data = f.data ++ '=' :: p.data := by
    intro f p
    simp [String.data_append]
  have hsplit : ∀ f p : String, '=' ∉ f.data →
      splitOnceAt '=' (f ++ "=" ++ p).data = (f.data, p.data) := by
    intro f p hf
    rw [splitOnceAt, hdata, takeUntil_pre '=' f.data p.data hf]
  have hcond : ∀ f p : String, ¬ ((f ++ "=" ++ p) = "" ∨
      ¬ containsChar (f ++ "=" ++ p) '=' = true) := by
    intro f p
    rw [not_or]
    constructor
    · intro h0
      have : (f ++ "=" ++ p).data = [] := by rw [h0]
      rw [hdata] at this
      simp at this
    · rw [not_not, containsChar, decide_eq_true_eq, hdata]
      simp
  refine ⟨?_, ?_, ?_, ?_⟩
  · intro r hr
    rw [parse_rule, if_pos (Or.inr (by simp [containsChar, hr]))]
  · intro f p hf hsup
    rw [parse_rule, if_neg (hcond f p)]
    simp only [hsplit f p hf]
    rw [if_pos hsup]
  · intro f p hf hp hnm
    rw [parse_rule, if_neg (hcond f p)]
    simp only [hsplit f p hf]
    by_cases hsup : stripS f ∈ SUPPORTED_FIELDS
    · rw [if_neg (not_not_intro hsup), if_pos ⟨hp, hnm⟩]
    · rw [if_pos hsup]
  · intro e bad rest hbad
    rw [_match_any_rule]
    rcases hbad with hnone | ⟨p, hp, hnever⟩ | ⟨f, p, hp, hnm, hnl, herr⟩
    · rw [hnone]
    · rw [hp]
      simp only
      rw [if_neg (by decide), if_pos trivial]
      have hmcl : (_match_content_length cc tc e p).1 = false := by
        simp only [_match_content_length]
        exact hnever _
      rw [if_neg (by simp [hmcl])]
      rw [mar_any, mar_any]
      have hfun : matchOneRule cc tc research (_match_content_length cc tc e p).2 =
          matchOneRule cc tc research e :=
        funext fun r' => matchOneRule_sameView cc tc research (mcl_sameView cc tc e p) r'
      rw [hfun]
    · rw [hp]
      simp only
      rw [if_neg hnm, if_neg hnl, herr]
      rw [mar_any, mar_any]
      have hfun : matchOneRule cc tc research (get_entry_field_value cc e f).2 =
          matchOneRule cc tc research e :=
        funext fun r' => matchOneRule_sameView cc tc research (gefv_sameView cc tc e f) r'
      rw [hfun]

theorem isPrefixOf_cons_cons (a b : Char) (as bs : List Char) :
    (a :: as).isPrefixOf (b :: bs) = (a == b && as.isPrefixOf bs) := rfl

theorem nil_isPrefixOf_true (bs : List Char) : ([] : List Char).isPrefixOf bs = true := by
  cases bs <;> rfl

theorem isPrefixOf_append_self (pre t : List Char) :
    pre.isPrefixOf (pre ++ t) = true := by
  induction pre with
  | nil => exact nil_isPrefixOf_true t
  | cons c cs ih => simp [isPrefixOf_cons_cons, ih]

/-- C9.  Numeric content-length rules compare exact integers and
`between:lo,hi` is inclusive on both ends: `between:50,100` matches exactly
when `50 ≤ length ≤ 100` (so it matches lengths 50 and 100 and rejects 49
and 101), and every numeric parse failure — a non-integer threshold, a
`between` without a comma, an unknown operator — yields "does not match"
rather than an exception (all evaluation functions are total). -/
theorem c9_numeric_operators (cc : String → String) (tc : String → Nat) (e : Entry) :
    ((_match_content_length cc tc e "between:50,100").1 =
      decide ((50 : Int) ≤ ((get_content_length cc tc e).1 : Int) ∧
        ((get_content_length cc tc e).1 : Int) ≤ 100)) ∧
    ((get_content_length cc tc e).1 = 50 →
      (_match_content_length cc tc e "between:50,100").1 = true) ∧
    ((get_content_length cc tc e).1 = 100 →
      (_match_content_length cc tc e "between:50,100").1 = true) ∧
    ((get_content_length cc tc e).1 = 49 →
      (_match_content_length cc tc e "between:50,100").1 = false) ∧
    ((get_content_length cc tc e).1 = 101 →
      (_match_content_length cc tc e "between:50,100").1 = false) ∧
    (∀ rest : List Char, pyInt rest = none →
      (_match_content_length cc tc e (String.mk ('g' :: 't' :: ':' :: rest))).1 = false) ∧
    (∀ t : List Char, ¬ t.contains ',' = true →
      (_match_content_length cc tc e (String.mk ("between:".data ++ t))).1 = false) ∧
    (∀ op : String,
      (∀ pre ∈ (["gt:", "ge:", "lt:", "le:", "eq:", "between:"] : List String),
        ¬ (String.data pre).isPrefixOf op.data = true) →
      (_match_content_length cc tc e op).1 = false) := by
  have hchar : (_match_content_length cc tc e "between:50,100").1 =
      decide ((50 : Int) ≤ ((get_content_length cc tc e).1 : Int) ∧
        ((get_content_length cc tc e).1 : Int) ≤ 100) := rfl
  refine ⟨hchar, ?_, ?_, ?_, ?_, ?_, ?_, ?_⟩
  · intro h
    rw [hchar, h]
    norm_num
  · intro h
    rw [hchar, h]
    norm_num
  · intro h
    rw [hchar, h]
    norm_num
  · intro h
    rw [hchar, h]
    norm_num
  · intro rest hre
    show lengthOpMatches ((get_content_length cc tc e).1 : Int)
      ('g' :: 't' :: ':' :: rest) = false
    have hgt : "gt:".data.isPrefixOf ('g' :: 't' :: ':' :: rest) = true := by
      show ('g' :: 't' :: ':' :: ([] : List Char)).isPrefixOf ('g' :: 't' :: ':' :: rest) = true
      simp [isPrefixOf_cons_cons, nil_isPrefixOf_true]
    rw [lengthOpMatches, if_pos hgt]
    rw [show List.drop 3 ('g' :: 't' :: ':' :: rest) = rest from rfl, hre]
  · intro t hcomma
    show lengthOpMatches ((get_content_length cc tc e).1 : Int)
      ("between:".data ++ t) = false
    have h1 : "gt:".data.isPrefixOf ("between:".data ++ t) = false := by
      show ('g' :: 't' :: ':' :: ([] : List Char)).isPrefixOf
        ('b' :: ('e' :: 't' :: 'w' :: 'e' :: 'e' :: 'n' :: ':' :: t)) = false
      rw [isPrefixOf_cons_cons]
      simp
    have h2 : "ge:".data.isPrefixOf ("between:".data ++ t) = false := by
      show ('g' :: 'e' :: ':' :: ([] : List Char)).isPrefixOf
        ('b' :: ('e' :: 't' :: 'w' :: 'e' :: 'e' :: 'n' :: ':' :: t)) = false
      rw [isPrefixOf_cons_cons]
      simp
    have h3 : "lt:".data.isPrefixOf ("between:".data ++ t) = false := by
      show ('l' :: 't' :: ':' :: ([] : List Char)).isPrefixOf
        ('b' :: ('e' :: 't' :: 'w' :: 'e' :: 'e' :: 'n' :: ':' :: t)) = false
      rw [isPrefixOf_cons_cons]
      simp
    have h4 : "le:".data.isPrefixOf ("between:".data ++ t) = false := by
      show ('l' :: 'e' :: ':' :: ([] : List Char)).isPrefixOf
        ('b' :: ('e' :: 't' :: 'w' :: 'e' :: 'e' :: 'n' :: ':' :: t)) = false
      rw [isPrefixOf_cons_cons]
      simp
    have h5 : "eq:".data.isPrefixOf ("between:".data ++ t) = false := by
      show ('e' :: 'q' :: ':' :: ([] : List Char)).isPrefixOf
        ('b' :: ('e' :: 't' :: 'w' :: 'e' :: 'e' :: 'n' :: ':' :: t)) = false
      rw [isPrefixOf_cons_cons]
      simp
    have h6 : "between:".data.isPrefixOf ("between:".data ++ t) = true :=
      isPrefixOf_append_self "between:".data t
    rw [lengthOpMatches, if_neg (by simp [h1]), if_neg (by simp [h2]),
      if_neg (by simp [h3]), if_neg (by simp [h4]), if_neg (by simp [h5]),
      if_pos h6]
    simp only [show List.drop 8 ("between:".data ++ t) = t from rfl]
    rw [if_pos hcomma]
  · intro op hpre
    show lengthOpMatches ((get_content_length cc tc e).1 : Int) op.data = false
    rw [lengthOpMatches, if_neg (hpre "gt:" (by simp)), if_neg (hpre "ge:" (by simp)),
      if_neg (hpre "lt:" (by simp)), if_neg (hpre "le:" (by simp)),
      if_neg (hpre "eq:" (by simp)), if_neg (hpre "between:" (by simp))]

/-! ### llm_client.py -/

def DEFAULT_SYSTEM_PROMPT : String :=
  "You are Miniflux AI Agent, skillfully interpreting RSS content to reframe its message with clarity and depth as requested."

structure Message where
  content : Option String := none
deriving DecidableEq

structure Choice where
  message : Option Message := none
deriving DecidableEq

structure Completion where
  choices : List Choice := []
deriving DecidableEq

/-- The message list `get_completion` sends: the system prompt (replaced by
`DEFAULT_SYSTEM_PROMPT` when empty or whitespace-only, per
`if not system_prompt or not system_prompt.strip()`) then the user prompt,
as `(role, content)` pairs. -/
def build_messages (system_prompt user_prompt : String) : List (String × String) :=
  let sp := if system_prompt = "" ∨ stripS system_prompt = "" then DEFAULT_SYSTEM_PROMPT
            else system_prompt
  [("system", sp), ("user", user_prompt)]

/-- The response handling of `get_completion`: missing choices or message
raise `LLMResponseError`; `None` or empty (falsy) content raises
`LLMResponseError`; otherwise `content.strip()` is returned. -/
def get_completion_result (completion : Completion) : Except String String :=
  match completion.choices with
  | [] => Except.error "LLM returned unexpected response"
  | ch :: _ =>
    match ch.message with
    | none => Except.error "LLM returned unexpected response"
    | some m =>
      match m.content with
      | none => Except.error "LLM returned empty content"
      | some content =>
        if content = "" then Except.error "LLM returned empty content"
        else Except.ok (stripS content)

theorem mem_dropWhile_of_not {p : Char → Bool} {c : Char} :
    ∀ {l : List Char}, c ∈ l → p c = false → c ∈ l.dropWhile p := by
  intro l
  induction l with
  | nil => intro h _; simp at h
  | cons d ds ih =>
    intro hm hc
    rw [List.dropWhile_cons]
    split
    · rename_i hd
      rcases List.mem_cons.mp hm with he | hm'
      · rw [← he] at hd
        rw [hc] at hd
        simp at hd
      · exact ih hm' hc
    · exact hm

theorem strip_ne_nil {l : List Char} {c : Char} (hm : c ∈ l)
    (hc : c.isWhitespace = false) : ¬ strip l = [] := by
  intro h0
  rw [strip] at h0
  have h1 : (l.dropWhile Char.isWhitespace).reverse.dropWhile Char.isWhitespace = [] := by
    simpa using h0
  have hc1 : c ∈ l.dropWhile Char.isWhitespace := mem_dropWhile_of_not hm hc
  have hc2 : c ∈ (l.dropWhile Char.isWhitespace).reverse := List.mem_reverse.mpr hc1
  have hc3 : c ∈ (l.dropWhile Char.isWhitespace).reverse.dropWhile Char.isWhitespace :=
    mem_dropWhile_of_not hc2 hc
  rw [h1] at hc3
  simp at hc3

/-- C3 (amended).  The completion handler fails with an explicit error on
every malformed response (no choices, missing message, missing or empty
content), and a returned value is always the *stripped* content of a
non-empty response; the stripped value is non-empty whenever the content
holds at least one non-whitespace character.  The claim's stronger
version — the returned value is never the empty string — is refuted by
`c3_whitespace_counterexample`: a whitespace-only content passes the
truthiness check and strips to the empty string. -/
theorem c3_error_on_malformed_amended (completion : Completion) :
    (completion.choices = [] →
      ∃ msg, get_completion_result completion = Except.error msg) ∧
    (∀ ch rest, completion.choices = ch :: rest → ch.message = none →
      ∃ msg, get_completion_result completion = Except.error msg) ∧
    (∀ ch rest m, completion.choices = ch :: rest → ch.message = some m →
      (m.content = none ∨ m.content = some "") →
      ∃ msg, get_completion_result completion = Except.error msg) ∧
    (∀ s, get_completion_result completion = Except.ok s →
      ∃ ch rest m content, completion.choices = ch :: rest ∧ ch.message = some m ∧
        m.content = some content ∧ ¬ content = "" ∧ s = stripS content ∧
        ((∃ c ∈ content.data, c.isWhitespace = false) → ¬ s = "")) := by
  refine ⟨?_, ?_, ?_, ?_⟩
  · intro h
    exact ⟨"LLM returned unexpected response", by simp [get_completion_result, h]⟩
  · intro ch rest hch hmsg
    exact ⟨"LLM returned unexpected response", by simp [get_completion_result, hch, hmsg]⟩
  · intro ch rest m hch hmsg hcontent
    rcases hcontent with hc | hc
    · exact ⟨"LLM returned empty content", by simp [get_completion_result, hch, hmsg, hc]⟩
    · exact ⟨"LLM returned empty content", by simp [get_completion_result, hch, hmsg, hc]⟩
  · intro s hs
    rw [get_completion_result] at hs
    split at hs
    · exact absurd hs (by simp)
    · rename_i ch tail hch
      split at hs
      · exact absurd hs (by simp)
      · rename_i m hmsg
        split at hs
        · exact absurd hs (by simp)
        · rename_i content hc
          by_cases h0 : content = ""
          · rw [if_pos h0] at hs
            exact absurd hs (by simp)
          · rw [if_neg h0] at hs
            simp only [Except.ok.injEq] at hs
            refine ⟨ch, tail, m, content, hch, hmsg, hc, h0, hs.symm, ?_⟩
            intro ⟨c, hcm, hcw⟩ hs0
            rw [← hs] at hs0
            have : strip content.data = [] := by
              have := congrArg String.data hs0
              simpa [stripS] using this
            exact strip_ne_nil hcm hcw this

/-- C3 (counterexample).  A response whose content is the single space
`" "` is truthy in Python, so no error is raised, and the returned value
`" ".strip()` is the empty string — the completion operation does return an
empty string, contradicting the claim. -/
theorem c3_whitespace_counterexample :
    get_completion_result ⟨[⟨some ⟨some " "⟩⟩]⟩ = Except.ok "" := by
  rw [get_completion_result]
  simp only
  rw [if_neg (by simp)]
  rfl

/-! ### entry_processor.py: prompt construction -/

/-- Python's substring containment `pat in s`. -/
def hasInfix (pat : List Char) : List Char → Bool
  | [] => pat.isEmpty
  | c :: cs => pat.isPrefixOf (c :: cs) || hasInfix pat cs

/-- `Agent` (common/models.py): prompt template, output wrapper template,
allow and deny rule lists. -/
structure Agent where
  prompt : String := ""
  template : String := ""
  allow_rules : List String := []
  deny_rules : List String := []
deriving DecidableEq

/-- The `(system_prompt, user_prompt)` pair `_get_agent_content` builds:
both placeholders are substituted into the instruction template; if the raw
template contains the content placeholder the whole rendered template is
the user prompt with an empty system prompt, else the rendered template is
the system prompt and a fixed wrapper message carries title and content. -/
def agent_prompts (agent : Agent) (title content_markdown : String) : String × String :=
  let prompt := (agent.prompt.replace "{title}" title).replace "{content}" content_markdown
  if hasInfix "{content}".data agent.prompt.data then ("", prompt)
  else (prompt,
    "Process only the [Content]. The [Title] is for context.\n\n[Title]\n" ++ title ++
    "\n\n[Content]\n" ++ content_markdown)

/-- The wire-level message list for one agent call: `_get_agent_content`'s
prompt pair fed through `get_completion`'s message construction. -/
def messages_for_agent (agent : Agent) (title content_markdown : String) :
    List (String × String) :=
  build_messages (agent_prompts agent title content_markdown).1
    (agent_prompts agent title content_markdown).2

/-- C4 (amended).  When the agent's template contains the `content`
placeholder, the entire rendered template is sent as the sole user-facing
instruction, but the message list still carries a system role, filled with
the fixed `DEFAULT_SYSTEM_PROMPT` (the claim's "no separate system role" is
refuted by `c4_default_system_role_counterexample`).  Otherwise the
rendered template is sent as the system-level instruction (falling back to
the default when it renders blank) and the fixed wrapper message carrying
title and content is the user-facing instruction. -/
theorem c4_prompt_construction_amended (agent : Agent) (title content_markdown : String) :
    (hasInfix "{content}".data agent.prompt.data = true →
      messages_for_agent agent title content_markdown =
        [("system", DEFAULT_SYSTEM_PROMPT),
         ("user", (agent.prompt.replace "{title}" title).replace "{content}" content_markdown)]) ∧
    (hasInfix "{content}".data agent.prompt.data = false →
      messages_for_agent agent title content_markdown =
        [("system",
          if (agent.prompt.replace "{title}" title).replace "{content}" content_markdown = "" ∨
              stripS ((agent.prompt.replace "{title}" title).replace "{content}" content_markdown) = ""
          then DEFAULT_SYSTEM_PROMPT
          else (agent.prompt.replace "{title}" title).replace "{content}" content_markdown),
         ("user",
          "Process only the [Content]. The [Title] is for context.\n\n[Title]\n" ++ title ++
          "\n\n[Content]\n" ++ content_markdown)]) := by
  constructor
  · intro h
    simp only [messages_for_agent, agent_prompts, build_messages]
    rw [if_pos h]
    simp
  · intro h
    simp only [messages_for_agent, agent_prompts, build_messages]
    have hn : ¬ (hasInfix "{content}".data agent.prompt.data = true) := by simp [h]
    rw [if_neg hn]

/-- C4 (counterexample).  For an agent whose template contains the content
placeholder, the claim says the rendered template is sent "with no separate
system role"; but the message list built for such an agent does contain a
message with the system role (carrying the default system prompt). -/
theorem c4_default_system_role_counterexample :
    ¬ (∀ m ∈ messages_for_agent ⟨"Summarize: {content}", "", [], []⟩ "T" "C",
        ¬ m.1 = "system") := by
  decide

/-! ### entry_processor.py: the orchestrator -/

inductive AgentStatus
  | success
  | filtered
  | error
deriving DecidableEq

/-- `AgentResult` (common/models.py): tagged outcome of one agent's attempt. -/
structure AgentResult where
  status : AgentStatus
  content : Option String := none
  error_message : Option String := none
deriving DecidableEq

def AgentResult.is_success (r : AgentResult) : Bool :=
  decide (r.status = AgentStatus.success)

/-- `_process_entry_with_agents`: the dedup gate and the per-agent loop.
`_ENTRY_CACHE` is modelled as the list of entry ids alive in the TTL
window (the claims under verification stay inside one window, so expiry
never fires); `runAgent` abstracts `_process_with_single_agent` (rule
matching, LLM call, formatting), which the source runs once per agent in
order.  Returns the per-agent results and the updated cache. -/
def _process_entry_with_agents (runAgent : String → Agent → Entry → AgentResult)
    (cache : List Int) (e : Entry) (agents : List (String × Agent)) :
    List (String × AgentResult) × List Int :=
  if agents = [] then ([], cache)
  else if e.id ∈ cache then ([], cache)
  else (agents.map fun na => (na.1, runAgent na.1 na.2 e), e.id :: cache)

/-- The observable outcome of `process_entry`: the per-agent result map, the
dedup-cache state afterwards, and the body pushed to `update_entry`
(`none` when no write-back call is made). -/
structure ProcessOutcome where
  results : List (String × AgentResult)
  cache : List Int
  writeback : Option (List Char)
deriving DecidableEq

/-- `process_entry`: decode the body, short-circuit on blank original
content, run the not-yet-annotated agents behind the dedup gate, and when
any agent succeeded merge existing and new contents and rebuild the body in
canonical order.  `agentsConfig` is `config.agents` as an ordered list. -/
def process_entry (runAgent : String → Agent → Entry → AgentResult)
    (agentsConfig : List (String × Agent)) (cache : List Int) (e : Entry) :
    ProcessOutcome :=
  let parsed := parse_entry_content e.content.data
  if strip parsed.1 = [] then ⟨[], cache, none⟩
  else
    let original_entry := { e with content := String.mk parsed.1 }
    let new_agents := agentsConfig.filter fun na => dictLookup na.1.data parsed.2 = none
    let pr := _process_entry_with_agents runAgent cache original_entry new_agents
    let new_contents : List (List Char × List Char) := pr.1.filterMap fun nr =>
      if nr.2.is_success then some (nr.1.data, (nr.2.content.getD "").data) else none
    if ¬ new_contents = [] then
      ⟨pr.1, pr.2, some (build_ordered_content (agentsConfig.map fun na => na.1.data)
        (new_contents.foldl (fun d kv => dictUpsert kv.1 kv.2 d) parsed.2) parsed.1)⟩
    else ⟨pr.1, pr.2, none⟩

/-- C8.  The dedup gate: for an article id not in the cache and a non-empty
working agent set, the first gate check reports not-seen — the id is
inserted and every agent runs; an immediately following check for the same
id (any entry carrying it, any non-empty agent set, any runner) reports
seen and returns the empty outcome map without invoking any agent. -/
theorem c8_dedup_gate_second_check_empty
    (runAgent runAgent2 : String → Agent → Entry → AgentResult)
    (cache : List Int) (e e2 : Entry) (agents agents2 : List (String × Agent))
    (hne : ¬ agents = []) (hne2 : ¬ agents2 = [])
    (hid : e.id ∉ cache) (hid2 : e2.id = e.id) :
    (_process_entry_with_agents runAgent cache e agents).2 = e.id :: cache ∧
    (_process_entry_with_agents runAgent cache e agents).1 =
      agents.map (fun na => (na.1, runAgent na.1 na.2 e)) ∧
    _process_entry_with_agents runAgent2
        (_process_entry_with_agents runAgent cache e agents).2 e2 agents2 =
      ([], (_process_entry_with_agents runAgent cache e agents).2) := by
  have h1 : _process_entry_with_agents runAgent cache e agents =
      (agents.map fun na => (na.1, runAgent na.1 na.2 e), e.id :: cache) := by
    rw [_process_entry_with_agents, if_neg hne, if_neg hid]
  refine ⟨by rw [h1], by rw [h1], ?_⟩
  rw [h1, _process_entry_with_agents, if_neg hne2,
    if_pos (by rw [hid2]; exact List.mem_cons_self _ _)]

/-- C8 (witness).  The gate theorem at a concrete input: id 0, empty cache,
one configured agent on each call. -/
theorem c8_dedup_gate_witness :
    (_process_entry_with_agents (fun _ _ _ => ⟨AgentStatus.success, some "X", none⟩)
      [] {} [("a", {})]).2 = (0 : Int) :: [] ∧
    (_process_entry_with_agents (fun _ _ _ => ⟨AgentStatus.success, some "X", none⟩)
      [] {} [("a", {})]).1 =
      [("a", {})].map (fun na => (na.1,
        (fun (_ : String) (_ : Agent) (_ : Entry) =>
          (⟨AgentStatus.success, some "X", none⟩ : AgentResult)) na.1 na.2 ({} : Entry))) ∧
    _process_entry_with_agents (fun _ _ _ => ⟨AgentStatus.filtered, none, none⟩)
        ((_process_entry_with_agents (fun _ _ _ => ⟨AgentStatus.success, some "X", none⟩)
          [] {} [("a", {})]).2) {} [("b", {})] =
      ([], (_process_entry_with_agents (fun _ _ _ => ⟨AgentStatus.success, some "X", none⟩)
        [] {} [("a", {})]).2) :=
  c8_dedup_gate_second_check_empty
    (fun _ _ _ => ⟨AgentStatus.success, some "X", none⟩)
    (fun _ _ _ => ⟨AgentStatus.filtered, none, none⟩)
    [] {} {} [("a", {})] [("b", {})]
    (by decide) (by decide) (by decide) (by decide)

/-- C10.  When every configured agent's name already has an entry in the
decoded agent-content map, the working agent set is empty and processing
returns an empty outcome map without consulting or modifying the dedup
cache: the id is not inserted, so nothing about this call blocks a later
submission of the same article. -/
theorem c10_empty_working_set_skips_gate
    (runAgent : String → Agent → Entry → AgentResult)
    (agentsConfig : List (String × Agent)) (cache : List Int) (e : Entry)
    (hall : ∀ na ∈ agentsConfig,
      ¬ dictLookup na.1.data (parse_entry_content e.content.data).2 = none) :
    process_entry runAgent agentsConfig cache e = ⟨[], cache, none⟩ := by
  simp only [process_entry]
  by_cases hblank : strip (parse_entry_content e.content.data).1 = []
  · rw [if_pos hblank]
  · rw [if_neg hblank]
    have hnew : (agentsConfig.filter fun na =>
        dictLookup na.1.data (parse_entry_content e.content.data).2 = none) = [] := by
      rw [List.filter_eq_nil_iff]
      intro na hna
      simp only [decide_eq_true_eq]
      exact hall na hna
    rw [hnew]
    have hpr : _process_entry_with_agents runAgent cache
        { e with content := String.mk (parse_entry_content e.content.data).1 } [] =
        ([], cache) := by
      rw [_process_entry_with_agents, if_pos rfl]
    rw [hpr]
    simp

/-- C10 (witness).  The theorem at a concrete input: an empty agent
configuration (vacuously, every configured agent is already present), a
non-blank entry body and a non-empty cache that must stay untouched. -/
theorem c10_empty_working_set_witness :
    process_entry (fun _ _ _ => ⟨AgentStatus.success, some "X", none⟩)
      [] [(7 : Int)] { content := "hello" } = ⟨[], [(7 : Int)], none⟩ :=
  c10_empty_working_set_skips_gate
    (fun _ _ _ => ⟨AgentStatus.success, some "X", none⟩)
    [] [(7 : Int)] { content := "hello" } (by decide)

theorem dictLookup_filter_of_mem (order : List (List Char)) (k : List Char)
    (hk : k ∈ order) :
    ∀ d : List (List Char × List Char),
      dictLookup k (d.filter fun kv => decide (kv.1 ∈ order)) = dictLookup k d := by
  intro d
  induction d with
  | nil => rfl
  | cons kv rest ih =>
    by_cases hm : kv.1 ∈ order
    · rw [List.filter_cons_of_pos (by simpa using hm)]
      by_cases he : kv.1 = k
      · simp [dictLookup, he]
      · simp [dictLookup, he, ih]
    · rw [List.filter_cons_of_neg (by simpa using hm)]
      have he : ¬ kv.1 = k := fun h => hm (h ▸ hk)
      simp [dictLookup, he, ih]

theorem mem_pewa_results {runAgent : String → Agent → Entry → AgentResult}
    {cache : List Int} {e : Entry} {agents : List (String × Agent)}
    {nr : String × AgentResult}
    (h : nr ∈ (_process_entry_with_agents runAgent cache e agents).1) :
    ∃ na ∈ agents, nr = (na.1, runAgent na.1 na.2 e) := by
  rw [_process_entry_with_agents] at h
  by_cases h1 : agents = []
  · rw [if_pos h1] at h
    simp at h
  · rw [if_neg h1] at h
    by_cases h2 : e.id ∈ cache
    · rw [if_pos h2] at h
      simp at h
    · rw [if_neg h2] at h
      obtain ⟨na, hna, he⟩ := List.mem_map.mp h
      exact ⟨na, hna, he.symm⟩

/-- C7 (amended).  A stale embedded block — one whose agent name has been
removed from the active configuration — survives only as long as no
write-back happens.  Part 1: every rebuild emits only configured names;
entries of the agent-content dict whose name is outside the canonical order
are silently dropped (the rebuilt body equals the rebuild of the dict
restricted to configured names), so re-processing that produces new content
prunes the stale block rather than preserving it (the claim's "no operation
ever prunes it" is refuted by `c7_stale_block_pruned_counterexample`).
Part 2: when no agent run succeeds, no write-back call is made, and only
then does the stale block remain embedded. -/
theorem c7_stale_block_amended :
    (∀ (order : List (List Char)) (d : List (List Char × List Char)) (orig : List Char),
      build_ordered_content order d orig =
        build_ordered_content order (d.filter fun kv => decide (kv.1 ∈ order)) orig) ∧
    (∀ (runAgent : String → Agent → Entry → AgentResult)
        (agentsConfig : List (String × Agent)) (cache : List Int) (e : Entry),
      (∀ (name : String) (agent : Agent) (ent : Entry),
        (runAgent name agent ent).is_success = false) →
      (process_entry runAgent agentsConfig cache e).writeback = none) := by
  constructor
  · intro order d orig
    by_cases hd : d = []
    · subst hd
      rfl
    · rw [build_ordered_content, build_ordered_content, if_neg hd]
      by_cases hf : (d.filter fun kv => decide (kv.1 ∈ order)) = []
      · rw [if_pos hf]
        have hjoin : (order.map fun name =>
            match dictLookup name d with
            | some c => c ++ marker name
            | none => []) = order.map fun _ => ([] : List Char) := by
          apply List.map_congr_left
          intro n hn
          have : dictLookup n d = none := by
            rw [← dictLookup_filter_of_mem order n hn d, hf]
            rfl
          rw [this]
        rw [hjoin]
        simp
      · rw [if_neg hf]
        have hmap : (order.map fun name =>
            match dictLookup name d with
            | some c => c ++ marker name
            | none => []) = order.map fun name =>
              match dictLookup name (d.filter fun kv => decide (kv.1 ∈ order)) with
              | some c => c ++ marker name
              | none => [] := by
          apply List.map_congr_left
          intro n hn
          rw [dictLookup_filter_of_mem order n hn d]
        rw [hmap]
  · intro runAgent agentsConfig cache e hall
    simp only [process_entry]
    by_cases hblank : strip (parse_entry_content e.content.data).1 = []
    · rw [if_pos hblank]
    · rw [if_neg hblank]
      have hnc : ((_process_entry_with_agents runAgent cache
          { e with content := String.mk (parse_entry_content e.content.data).1 }
          (agentsConfig.filter fun na =>
            dictLookup na.1.data (parse_entry_content e.content.data).2 = none)).1.filterMap
          fun nr => if nr.2.is_success = true
            then some (nr.1.data, (nr.2.content.getD "").data) else none) = [] := by
        rw [List.filterMap_eq_nil_iff]
        intro nr hnr
        obtain ⟨na, _, hnre⟩ := mem_pewa_results hnr
        rw [hnre]
        simp [hall]
      rw [hnc]
      simp

/-- C7 (counterexample).  An article whose body embeds a block `"S"` under
the removed agent name `stale`, re-processed under a configuration holding
only the agent `t` whose run succeeds with `"X"`: the write-back body is
exactly `"X" ++ marker t ++ "O"` — the stale block `"S"` is gone from the
written-back body, even though it was present in the input body.  So
re-processing does prune the stale block, contradicting the claim. -/
theorem c7_stale_block_pruned_counterexample :
    (process_entry (fun _ _ _ => ⟨AgentStatus.success, some "X", none⟩)
        [("t", {})] []
        { content := String.mk ("S".data ++ (marker "stale".data ++ "O".data)) }).writeback =
      some ("X".data ++ marker "t".data ++ "O".data) ∧
    hasInfix "S".data ("X".data ++ marker "t".data ++ "O".data) = false ∧
    hasInfix "S".data ("S".data ++ (marker "stale".data ++ "O".data)) = true := by
  have h2 : scanMarkers "O".data = ([], "O".data) :=
    scanMarkers_no_marker "O".data (by decide)
  have h1 : scanMarkers (marker "stale".data ++ "O".data) =
      (([], "stale".data) :: (scanMarkers "O".data).1, (scanMarkers "O".data).2) :=
    scanMarkers_marker "stale".data (by decide) (by decide) "O".data
  have hscan : scanMarkers ("S".data ++ (marker "stale".data ++ "O".data)) =
      ([("S".data, "stale".data)], "O".data) := by
    rw [scanMarkers_text "S".data (by decide) _, h1, h2]
    decide
  have hparse : parse_entry_content ("S".data ++ (marker "stale".data ++ "O".data)) =
      ("O".data, [("stale".data, "S".data)]) := by
    simp only [parse_entry_content, hscan]
    decide
  refine ⟨?_, by decide, by decide⟩
  simp only [process_entry, hparse]
  decide

end MinifluxAI
